import Mathlib

/-!
Verification of the bulk component-analysis orchestrator (`analyze.js` and its
context-aware variant): the response normalizer, the sequential batch loop with
per-target fallback, the throttle accounting, and the project-context builder.

External effects (filesystem, the generative service, the runtime JSON parser)
are modelled as parameters of an `Env` record.  The service is an oracle
indexed by the number of calls made so far, so distinct calls may return
distinct completions (the real service is nondeterministic across calls).
-/

namespace Previewer

/-- JSON-compatible values, the result type of the runtime JSON parse. -/
inductive Json where
  | null
  | bool (b : Bool)
  | num (n : Int)
  | str (s : String)
  | arr (elems : List Json)
  | obj (fields : List (String × Json))

/-- Byte-for-byte prefix test on character lists. -/
def isPre : List Char → List Char → Bool
  | [], _ => true
  | _ :: _, [] => false
  | a :: as, b :: bs => a == b && isPre as bs

/-- Does `pat` occur as a contiguous substring anywhere in the list? -/
def containsSub (pat : List Char) : List Char → Bool
  | [] => isPre pat []
  | c :: cs => isPre pat (c :: cs) || containsSub pat cs

/-- Worker for global pattern deletion: when the skip counter is positive the
characters of an already-matched occurrence are being consumed; at zero, a
match at the current position deletes it and schedules the remaining
`pat.length - 1` characters to be skipped, mirroring a left-to-right global
regex replace with an empty replacement. -/
def rmA (pat : List Char) : Nat → List Char → List Char
  | _, [] => []
  | Nat.succ k, _ :: cs => rmA pat k cs
  | 0, c :: cs =>
    if isPre pat (c :: cs) then rmA pat (pat.length - 1) cs
    else c :: rmA pat 0 cs

/-- Delete every occurrence of `pat`, scanning left to right without
rescanning replaced text: the model of JS `s.replace(re_global, "")` for a
literal pattern. -/
def removeAll (pat : List Char) (s : List Char) : List Char :=
  if pat.isEmpty then s else rmA pat 0 s

/-- The backtick character, obtained from a one-character string. -/
def fenceChar : Char := "`".toList.headD ' '

/-- The opening fence with the json language tag, pattern of the first
`replace` call in the source. -/
def cccjson : List Char := "```json".toList

/-- A bare code fence, pattern of the second `replace` call in the source. -/
def ccc : List Char := "```".toList

/-- Whitespace recognized by the trim step. -/
def isWS (c : Char) : Bool := c == ' ' || c == '\n' || c == '\t' || c == '\r'

/-- Trim whitespace from both ends, the model of JS `String.prototype.trim`. -/
def trimList (s : List Char) : List Char :=
  ((s.dropWhile isWS).reverse.dropWhile isWS).reverse

/-- The fence-stripping part of the normalizer:
`text.replace(re_fence_json_global, "").replace(re_fence_global, "")`. -/
def stripList (s : List Char) : List Char :=
  removeAll ccc (removeAll cccjson s)

/-- Full normalization of a raw completion prior to parsing: strip the two
fence patterns, then trim surrounding whitespace. -/
def normList (s : List Char) : List Char :=
  trimList (stripList s)

/-- String-level wrapper of `normList`. -/
def normalizeText (s : String) : String :=
  String.mk (normList s.data)

/-- Outcome of one call to the external generative service. -/
inductive ServiceOutcome where
  | err (msg : String)
  | ok (text : String)
deriving DecidableEq

/-- The run environment: filesystem, prompt composition, the external service
(an oracle indexed by the number of calls already made), and the runtime JSON
parser (`none` models a parse exception). -/
structure Env where
  fsExists : String → Bool
  fsRead : String → String
  mkPrompt : String → String → String
  svc : Nat → String → ServiceOutcome
  jparse : String → Option Json

/-- Mutable state of the batch loop: the accumulated output object, the
number of external calls made, and the number of throttle delays taken. -/
structure RunState where
  output : List (String × Json)
  calls : Nat
  throttles : Nat

/-- The degraded entry recorded when a target's analysis fails:
`{ props: {}, wrappers: {} }`. -/
def fallbackResult : Json :=
  Json.obj [("props", Json.obj []), ("wrappers", Json.obj [])]

/-- JS object property assignment `m[k] = v` on an insertion-ordered
association list: an existing key keeps its position and gets the new value,
a new key is appended at the end. -/
def objSet (m : List (String × Json)) (k : String) (v : Json) :
    List (String × Json) :=
  if m.any (fun p => p.1 == k) then
    m.map (fun p => if p.1 == k then (k, v) else p)
  else m ++ [(k, v)]

/-- First value stored under a key, if any. -/
def lookupKey (m : List (String × Json)) (k : String) : Option Json :=
  match m with
  | [] => none
  | p :: rest => if p.1 == k then some p.2 else lookupKey rest k

/-- One iteration of the batch loop body for target `f`: skip a missing file;
otherwise read it, call the service with the composed prompt, normalize and
parse the completion, record the parsed entry (sleeping afterwards when the
whole input list has more than one element), or record the fallback entry on
any service or parse failure without sleeping. -/
def processFile (e : Env) (many : Bool) (st : RunState) (f : String) :
    RunState :=
  if e.fsExists f then
    match e.svc st.calls (e.mkPrompt f (e.fsRead f)) with
    | ServiceOutcome.err _ =>
      ⟨objSet st.output f fallbackResult, st.calls + 1, st.throttles⟩
    | ServiceOutcome.ok raw =>
      match e.jparse (normalizeText raw) with
      | none =>
        ⟨objSet st.output f fallbackResult, st.calls + 1, st.throttles⟩
      | some v =>
        ⟨objSet st.output f v, st.calls + 1,
          st.throttles + (if many then 1 else 0)⟩
  else st

/-- Sequential fold of the loop body over the remaining targets. -/
def runFiles (e : Env) (many : Bool) : RunState → List String → RunState
  | st, [] => st
  | st, f :: rest => runFiles e many (processFile e many st f) rest

/-- The state at loop entry: empty output, no calls, no delays. -/
def initState : RunState := ⟨[], 0, 0⟩

/-- The whole `analyzeAll` loop: the throttle condition `FILES.length > 1`
is computed from the full input list once. -/
def analyzeAll (e : Env) (files : List String) : RunState :=
  runFiles e (decide (1 < files.length)) initState files

/-- Result of the whole process: exit code, diagnostic, persisted artifact
(if any), and how many external calls were made. -/
structure MainResult where
  exitCode : Nat
  diag : Option String
  artifact : Option (List (String × Json))
  callsMade : Nat

/-- Top level of the script: an empty argument list exits with code 1 and a
diagnostic before anything else happens; otherwise the batch runs and its
output object is written as the artifact. -/
def runMain (e : Env) (files : List String) : MainResult :=
  if files.isEmpty then
    ⟨1, some "❌ No files provided to analyze.", none, 0⟩
  else
    ⟨0, none, some (analyzeAll e files).output, (analyzeAll e files).calls⟩

/-- Parsed shape of the optional project manifest: `name`, `description`,
and the keys of `dependencies`.  A missing field is `none`. -/
structure Pkg where
  name : Option String
  description : Option String
  dependencies : List String

/-- Environment of the context builder: does `package.json` exist, what it
parses to (`none` models a `JSON.parse` exception), and the content of
`README.md` when that file exists. -/
structure CtxEnv where
  pkgExists : Bool
  pkgParsed : Option Pkg
  readme : Option String

/-- JS `x || d` on an optional string: a missing or empty string falls back
to the default. -/
def strOr (o : Option String) (d : String) : String :=
  match o with
  | none => d
  | some s => if s = "" then d else s

/-- JS `s.substring(0, n)`: the first `n` characters. -/
def takeChars (n : Nat) (s : String) : String :=
  String.mk (s.data.take n)

/-- The manifest-derived part of the project context. -/
def pkgHeader (p : Pkg) : String :=
  "Project Name: \"" ++ strOr p.name "Unnamed" ++ "\"\nDescription: \"" ++
    strOr p.description "" ++ "\"" ++ "\nKey Libraries: " ++
    String.intercalate ", " p.dependencies

/-- The README-derived block appended to the context. -/
def readmeBlock (r : String) : String :=
  "\n\nREADME Summary:\n" ++ takeChars 3000 r ++ "..."

/-- The context-gathering step of the context-aware variant: start from the
placeholder, rebuild from the manifest when `package.json` exists and parses,
append the README block when `README.md` exists, and on a parse exception
keep whatever had been assigned before the failing statement (the initial
placeholder, since the parse is the first statement that can throw). -/
def buildContext (e : CtxEnv) : String :=
  if e.pkgExists then
    match e.pkgParsed with
    | none => "Unknown React Application"
    | some p =>
      match e.readme with
      | none => pkgHeader p
      | some r => pkgHeader p ++ readmeBlock r
  else
    match e.readme with
    | none => "Unknown React Application"
    | some r => "Unknown React Application" ++ readmeBlock r

/-- How many targets of the remaining list complete successfully (file
present, service call returns text, normalized text parses), threading the
call counter the way the loop does.  Measures where the post-success sleep
fires. -/
def countSucc (e : Env) : Nat → List String → Nat
  | _, [] => 0
  | k, f :: rest =>
    if e.fsExists f then
      match e.svc k (e.mkPrompt f (e.fsRead f)) with
      | ServiceOutcome.err _ => countSucc e (k + 1) rest
      | ServiceOutcome.ok raw =>
        match e.jparse (normalizeText raw) with
        | none => countSucc e (k + 1) rest
        | some _ => 1 + countSucc e (k + 1) rest
    else countSucc e k rest

/-- Pair every element with its position, starting the count at `k`; with all
files present, position `i` of the input list is served by external call `i`. -/
def withIdx (k : Nat) : List String → List (Nat × String)
  | [] => []
  | f :: rest => (k, f) :: withIdx (k + 1) rest

/-- Environment where every file exists and the service answers call `k`
with the raw text `"r1"` or `"r2"`, each parsing to a distinct value. -/
def eTwo : Env where
  fsExists := fun _ => true
  fsRead := fun _ => ""
  mkPrompt := fun _ _ => ""
  svc := fun k _ => ServiceOutcome.ok (if k = 0 then "r1" else "r2")
  jparse := fun s =>
    if s = "r1" then some (Json.num 1)
    else if s = "r2" then some (Json.num 2)
    else none

/-- The raw completion texts `eTwo` returns, by call index. -/
def tTwo : Nat → String := fun k => if k = 0 then "r1" else "r2"

/-- The parsed values of `eTwo`'s completions, by call index. -/
def vTwo : Nat → Json := fun k => if k = 0 then Json.num 1 else Json.num 2

/-- Environment whose service always fails. -/
def eErr : Env where
  fsExists := fun _ => true
  fsRead := fun _ => ""
  mkPrompt := fun _ _ => ""
  svc := fun _ _ => ServiceOutcome.err "boom"
  jparse := fun _ => none

/-- Environment where the file named `"gone"` does not exist and every other
target succeeds with a fixed parseable completion. -/
def eSkip : Env where
  fsExists := fun f => !(f == "gone")
  fsRead := fun _ => ""
  mkPrompt := fun _ _ => ""
  svc := fun _ _ => ServiceOutcome.ok "r1"
  jparse := fun s => if s = "r1" then some (Json.num 1) else none

/-- A parse function behaving like a JSON parser on the two strings the C10
witness needs: the original completion and its fence-stripped residue. -/
def jpFence : String → Option Json :=
  fun s =>
    if s = "\x7b\"a\":\"x```y\"\x7d" then
      some (Json.obj [("a", Json.str "x```y")])
    else if s = "\x7b\"a\":\"xy\"\x7d" then
      some (Json.obj [("a", Json.str "xy")])
    else none

/-! ### Properties of the fence-stripping scan -/

theorem dropLenAppend {α : Type} (l r : List α) : (l ++ r).drop l.length = r := by
  induction l with
  | nil => simp
  | cons a as ih => simp [ih]

theorem isPre_self_append (l r : List Char) : isPre l (l ++ r) = true := by
  induction l with
  | nil => rfl
  | cons a as ih => simp [isPre, ih]

theorem rmA_shift (pat : List Char) :
    ∀ (s : List Char) (k : Nat), rmA pat k s = rmA pat 0 (s.drop k) := by
  intro s
  induction s with
  | nil => intro k; cases k <;> rfl
  | cons c cs ih =>
    intro k
    cases k with
    | zero => rfl
    | succ k2 => simpa [rmA] using ih k2

theorem rmA_head_match (pat rest : List Char) (h : pat ≠ []) :
    rmA pat 0 (pat ++ rest) = rmA pat 0 rest := by
  obtain ⟨p, ps, rfl⟩ := List.exists_cons_of_ne_nil h
  have hpre : isPre (p :: ps) (p :: (ps ++ rest)) = true := isPre_self_append (p :: ps) rest
  simp only [List.cons_append, rmA, List.append_eq, hpre, if_true, List.length_cons,
    Nat.add_sub_cancel]
  rw [rmA_shift, dropLenAppend]

theorem rmA_no_occurrence (pat : List Char) :
    ∀ s, containsSub pat s = false → rmA pat 0 s = s := by
  intro s
  induction s with
  | nil => intro _; rfl
  | cons c cs ih =>
    intro h
    rw [containsSub, Bool.or_eq_false_iff] at h
    simp [rmA, h.1, ih h.2]

theorem removeAll_no_occurrence (pat s : List Char) (h : containsSub pat s = false) :
    removeAll pat s = s := by
  by_cases hp : pat.isEmpty
  · simp [removeAll, hp]
  · simp [removeAll, hp, rmA_no_occurrence pat s h]

theorem isPre_of_append (p q : List Char) :
    ∀ l, isPre (p ++ q) l = true → isPre p l = true := by
  induction p with
  | nil => intro l _; rfl
  | cons a as ih =>
    intro l h
    cases l with
    | nil => simp [isPre] at h
    | cons b bs =>
      simp only [List.cons_append, isPre, Bool.and_eq_true] at h ⊢
      exact ⟨h.1, ih bs h.2⟩

theorem isPre_append_false (p q l : List Char) (h : isPre p l = false) :
    isPre (p ++ q) l = false := by
  cases hpq : isPre (p ++ q) l with
  | false => rfl
  | true => rw [isPre_of_append p q l hpq] at h; cases h

theorem containsSub_append_false (p q : List Char) :
    ∀ s, containsSub p s = false → containsSub (p ++ q) s = false := by
  intro s
  induction s with
  | nil =>
    intro h
    rw [containsSub] at h ⊢
    exact isPre_append_false p q [] h
  | cons c cs ih =>
    intro h
    rw [containsSub, Bool.or_eq_false_iff] at h ⊢
    exact ⟨isPre_append_false p q (c :: cs) h.1, ih h.2⟩

theorem rmA_skip_mid (h0 : Char) (t0 : List Char) :
    ∀ (mid tail : List Char), (∀ c ∈ mid, c ≠ h0) →
      rmA (h0 :: t0) 0 (mid ++ tail) = mid ++ rmA (h0 :: t0) 0 tail := by
  intro mid
  induction mid with
  | nil => intro tail _; rfl
  | cons c cs ih =>
    intro tail hmid
    have hc : c ≠ h0 := hmid c (by simp)
    have hpre : isPre (h0 :: t0) (c :: (cs ++ tail)) = false := by
      simp only [isPre, Bool.and_eq_true, beq_iff_eq, Bool.and_eq_false_iff]
      by_cases hb : (h0 == c) = true
      · exact absurd (eq_of_beq hb).symm hc
      · exact Or.inl (Bool.eq_false_iff.mpr hb)
    simp only [List.cons_append, rmA, List.append_eq, hpre, Bool.false_eq_true, if_false]
    rw [ih tail (fun d hd => hmid d (by simp [hd]))]

theorem trimList_wrap (l : List Char) :
    trimList (List.cons '\n' (l ++ ['\n'])) = trimList l := by
  unfold trimList
  have hnl : isWS '\n' = true := rfl
  rw [List.dropWhile_cons_of_pos (by simp [hnl])]
  rcases hdl : List.dropWhile isWS l with _ | ⟨d, ds⟩
  · rw [List.dropWhile_append, hdl]
    simp [hnl]
  · rw [List.dropWhile_append, hdl]
    simp only [List.isEmpty_cons, if_false, Bool.false_eq_true]
    rw [List.reverse_append]
    simp only [List.reverse_cons, List.reverse_nil, List.nil_append, List.singleton_append]
    rw [List.dropWhile_cons_of_pos (by simp [hnl])]

/-! ### Properties of the output object -/

theorem objSet_fresh (m : List (String × Json)) (k : String) (v : Json)
    (h : k ∉ m.map Prod.fst) : objSet m k v = m ++ [(k, v)] := by
  have hany : m.any (fun p => p.1 == k) = false := by
    rw [List.any_eq_false]
    intro p hp
    simp only [beq_iff_eq]
    intro hk
    exact h (List.mem_map.mpr ⟨p, hp, hk⟩)
  simp [objSet, hany]

theorem lookupKey_append_left (m m2 : List (String × Json)) (k : String) (v : Json)
    (h : lookupKey m k = some v) : lookupKey (m ++ m2) k = some v := by
  induction m with
  | nil => cases h
  | cons p ps ih =>
    rw [lookupKey] at h
    by_cases hp : (p.1 == k) = true
    · simp only [List.cons_append, lookupKey, hp, if_true] at h ⊢
      exact h
    · simp only [hp, Bool.false_eq_true, if_false] at h
      simp only [List.cons_append, lookupKey, hp, Bool.false_eq_true, if_false]
      exact ih h

theorem lookupKey_not_mem (m : List (String × Json)) (k : String)
    (h : k ∉ m.map Prod.fst) : lookupKey m k = none := by
  induction m with
  | nil => rfl
  | cons p ps ih =>
    simp only [List.map_cons, List.mem_cons] at h
    push_neg at h
    have hp : (p.1 == k) = false := by
      simp only [beq_eq_false_iff_ne, ne_eq]
      intro he
      exact h.1 he.symm
    rw [lookupKey, hp]
    simp only [Bool.false_eq_true, if_false]
    exact ih h.2

theorem lookupKey_append_none (m m2 : List (String × Json)) (k : String)
    (h : lookupKey m k = none) : lookupKey (m ++ m2) k = lookupKey m2 k := by
  induction m with
  | nil => rfl
  | cons p ps ih =>
    rw [lookupKey] at h
    by_cases hp : (p.1 == k) = true
    · rw [hp] at h; simp at h
    · simp only [hp, Bool.false_eq_true, if_false] at h
      simp only [List.cons_append, lookupKey, hp, Bool.false_eq_true, if_false]
      exact ih h

theorem lookupKey_objSet_self (m : List (String × Json)) (k : String) (v : Json) :
    lookupKey (objSet m k v) k = some v := by
  rw [objSet]
  by_cases hm : m.any (fun p => p.1 == k) = true
  · rw [if_pos hm]
    induction m with
    | nil => cases hm
    | cons p ps ih =>
      by_cases hp : (p.1 == k) = true
      · simp only [List.map_cons, hp, if_true, lookupKey, beq_self_eq_true]
      · simp only [List.any_cons, hp, Bool.false_or] at hm
        simp only [List.map_cons, hp, Bool.false_eq_true, if_false, lookupKey,
          Bool.false_eq_true]
        exact ih hm
  · rw [if_neg hm]
    rw [Bool.not_eq_true, List.any_eq_false] at hm
    have hnone : lookupKey m k = none := by
      apply lookupKey_not_mem
      intro hk
      obtain ⟨p, hp, he⟩ := List.mem_map.mp hk
      exact hm p hp (by simp [he])
    rw [lookupKey_append_none m [(k, v)] k hnone]
    simp [lookupKey]

theorem lookupKey_objSet_ne (m : List (String × Json)) (k j : String) (v : Json)
    (h : j ≠ k) : lookupKey (objSet m k v) j = lookupKey m j := by
  have hkj : (k == j) = false := by
    simp only [beq_eq_false_iff_ne, ne_eq]
    intro he
    exact h he.symm
  rw [objSet]
  by_cases hm : m.any (fun p => p.1 == k) = true
  · rw [if_pos hm]
    clear hm
    induction m with
    | nil => rfl
    | cons p ps ih =>
      by_cases hp : (p.1 == k) = true
      · have hpj : (p.1 == j) = false := by
          rw [beq_eq_false_iff_ne]
          rw [beq_iff_eq] at hp
          rw [hp]
          intro he
          exact h he.symm
        simp only [List.map_cons, hp, if_true, lookupKey, hkj, hpj, Bool.false_eq_true,
          if_false]
        exact ih
      · simp only [List.map_cons, hp, Bool.false_eq_true, if_false, lookupKey]
        by_cases hpj : (p.1 == j) = true
        · rw [hpj]; simp
        · simp only [hpj, Bool.false_eq_true, if_false]
          exact ih
  · rw [if_neg hm]
    induction m with
    | nil => simp [lookupKey, hkj]
    | cons p ps ih =>
      simp only [List.cons_append, lookupKey]
      by_cases hpj : (p.1 == j) = true
      · rw [hpj]; simp
      · simp only [hpj, Bool.false_eq_true, if_false]
        apply ih
        intro hany
        exact hm (by simp only [List.any_cons, hany, Bool.or_true])

theorem objSet_keys_fresh (m : List (String × Json)) (k : String) (v : Json)
    (h : k ∉ m.map Prod.fst) :
    (objSet m k v).map Prod.fst = m.map Prod.fst ++ [k] := by
  rw [objSet_fresh m k v h]
  simp

/-! ### Properties of the batch loop -/

theorem processFile_skip (e : Env) (m : Bool) (st : RunState) (f : String)
    (h : e.fsExists f = false) : processFile e m st f = st := by
  simp [processFile, h]

theorem processFile_writes (e : Env) (m : Bool) (st : RunState) (f : String)
    (h : e.fsExists f = true) :
    ∃ w, (processFile e m st f).output = objSet st.output f w := by
  rcases hsvc : e.svc st.calls (e.mkPrompt f (e.fsRead f)) with msg | raw
  · exact ⟨fallbackResult, by simp [processFile, h, hsvc]⟩
  · rcases hjp : e.jparse (normalizeText raw) with _ | v
    · exact ⟨fallbackResult, by simp [processFile, h, hsvc, hjp]⟩
    · exact ⟨v, by simp [processFile, h, hsvc, hjp]⟩

theorem processFile_output_cases (e : Env) (m : Bool) (st : RunState) (f : String) :
    (processFile e m st f).output = st.output ∨
      ∃ w, (processFile e m st f).output = objSet st.output f w := by
  by_cases hf : e.fsExists f = true
  · exact Or.inr (processFile_writes e m st f hf)
  · have hf2 : e.fsExists f = false := by revert hf; cases e.fsExists f <;> simp
    exact Or.inl (by rw [processFile_skip e m st f hf2])

theorem runFiles_append (e : Env) (m : Bool) :
    ∀ (l1 l2 : List String) (st : RunState),
      runFiles e m st (l1 ++ l2) = runFiles e m (runFiles e m st l1) l2 := by
  intro l1
  induction l1 with
  | nil => intro l2 st; rfl
  | cons f fs ih => intro l2 st; rw [List.cons_append, runFiles, runFiles, ih]

theorem lookupKey_runFiles_not_mem (e : Env) (m : Bool) :
    ∀ (l : List String) (st : RunState) (f : String), f ∉ l →
      lookupKey (runFiles e m st l).output f = lookupKey st.output f := by
  intro l
  induction l with
  | nil => intro st f _; rfl
  | cons g gs ih =>
    intro st f hf
    have hfg : f ≠ g := by intro he; exact hf (by simp [he])
    have hgs : f ∉ gs := fun hm2 => hf (by simp [hm2])
    rw [runFiles, ih _ f hgs]
    rcases processFile_output_cases e m st g with h | ⟨w, h⟩
    · rw [h]
    · rw [h, lookupKey_objSet_ne st.output g f w hfg]

theorem lookupKey_runFiles_missing (e : Env) (m : Bool) (f : String)
    (hf : e.fsExists f = false) :
    ∀ (l : List String) (st : RunState),
      lookupKey (runFiles e m st l).output f = lookupKey st.output f := by
  intro l
  induction l with
  | nil => intro st; rfl
  | cons g gs ih =>
    intro st
    rw [runFiles, ih]
    by_cases hg : e.fsExists g = true
    · have hfg : f ≠ g := by intro he; rw [he, hg] at hf; cases hf
      rcases processFile_output_cases e m st g with h | ⟨w, h⟩
      · rw [h]
      · rw [h, lookupKey_objSet_ne st.output g f w hfg]
    · have hg2 : e.fsExists g = false := by revert hg; cases e.fsExists g <;> simp
      rw [processFile_skip e m st g hg2]

theorem runFiles_keys (e : Env) (m : Bool) :
    ∀ (l : List String) (st : RunState), l.Nodup →
      (∀ g ∈ l, g ∉ st.output.map Prod.fst) →
      (runFiles e m st l).output.map Prod.fst =
        st.output.map Prod.fst ++ l.filter (fun g => e.fsExists g) := by
  intro l
  induction l with
  | nil => intro st _ _; simp [runFiles]
  | cons g gs ih =>
    intro st hnd hfresh
    have hnd2 := (List.nodup_cons.mp hnd).2
    have hgninl := (List.nodup_cons.mp hnd).1
    rw [runFiles]
    by_cases hg : e.fsExists g = true
    · obtain ⟨w, hw⟩ := processFile_writes e m st g hg
      have hkeys : (processFile e m st g).output.map Prod.fst =
          st.output.map Prod.fst ++ [g] := by
        rw [hw, objSet_keys_fresh st.output g w (hfresh g (by simp))]
      have hfresh2 : ∀ x ∈ gs, x ∉ (processFile e m st g).output.map Prod.fst := by
        intro x hx
        rw [hkeys]
        simp only [List.mem_append, List.mem_singleton]
        rintro (hx2 | rfl)
        · exact hfresh x (by simp [hx]) hx2
        · exact hgninl hx
      rw [ih (processFile e m st g) hnd2 hfresh2, hkeys]
      simp [List.filter_cons, hg]
    · have hg2 : e.fsExists g = false := by revert hg; cases e.fsExists g <;> simp
      rw [processFile_skip e m st g hg2]
      rw [ih st hnd2 (fun x hx => hfresh x (by simp [hx]))]
      simp [List.filter_cons, hg2]

theorem runFiles_extends (e : Env) (m : Bool) :
    ∀ (l : List String) (st : RunState), l.Nodup →
      (∀ g ∈ l, g ∉ st.output.map Prod.fst) →
      ∃ t, st.output ++ t = (runFiles e m st l).output := by
  intro l
  induction l with
  | nil => intro st _ _; exact ⟨[], by simp [runFiles]⟩
  | cons g gs ih =>
    intro st hnd hfresh
    have hnd2 := (List.nodup_cons.mp hnd).2
    have hgninl := (List.nodup_cons.mp hnd).1
    rw [runFiles]
    by_cases hg : e.fsExists g = true
    · obtain ⟨w, hw⟩ := processFile_writes e m st g hg
      have hout : (processFile e m st g).output = st.output ++ [(g, w)] := by
        rw [hw, objSet_fresh st.output g w (hfresh g (by simp))]
      have hfresh2 : ∀ x ∈ gs, x ∉ (processFile e m st g).output.map Prod.fst := by
        intro x hx
        rw [hout]
        simp only [List.map_append, List.mem_append]
        rintro (hx2 | hx3)
        · exact hfresh x (by simp [hx]) hx2
        · simp only [List.map_cons, List.map_nil, List.mem_singleton] at hx3
          exact hgninl (hx3 ▸ hx)
      obtain ⟨t2, ht2⟩ := ih (processFile e m st g) hnd2 hfresh2
      refine ⟨(g, w) :: t2, ?_⟩
      rw [← ht2, hout]
      simp
    · have hg2 : e.fsExists g = false := by revert hg; cases e.fsExists g <;> simp
      rw [processFile_skip e m st g hg2]
      exact ih st hnd2 (fun x hx => hfresh x (by simp [hx]))

theorem runFiles_throttles (e : Env) (m : Bool) :
    ∀ (l : List String) (st : RunState),
      (runFiles e m st l).throttles =
        st.throttles + (if m = true then countSucc e st.calls l else 0) := by
  intro l
  induction l with
  | nil => intro st; simp [runFiles, countSucc]
  | cons g gs ih =>
    intro st
    rw [runFiles, ih]
    by_cases hg : e.fsExists g = true
    · rcases hsvc : e.svc st.calls (e.mkPrompt g (e.fsRead g)) with msg | raw
      · simp [processFile, hg, hsvc, countSucc]
      · rcases hjp : e.jparse (normalizeText raw) with _ | v
        · simp [processFile, hg, hsvc, hjp, countSucc]
        · simp only [processFile, hg, if_true, hsvc, hjp, countSucc]
          by_cases hm2 : m = true
          · simp [hm2]; omega
          · simp [hm2]
    · have hg2 : e.fsExists g = false := by revert hg; cases e.fsExists g <;> simp
      rw [processFile_skip e m st g hg2]
      simp [countSucc, hg2]

theorem runFiles_all_ok (e : Env) (m : Bool) (t : Nat → String) (v : Nat → Json) :
    ∀ (l : List String) (st : RunState), l.Nodup →
      (∀ g ∈ l, g ∉ st.output.map Prod.fst) →
      (∀ p ∈ withIdx st.calls l,
        e.fsExists p.2 = true ∧
        e.svc p.1 (e.mkPrompt p.2 (e.fsRead p.2)) = ServiceOutcome.ok (t p.1) ∧
        e.jparse (normalizeText (t p.1)) = some (v p.1)) →
      (runFiles e m st l).output =
        st.output ++ (withIdx st.calls l).map (fun p => (p.2, v p.1)) := by
  intro l
  induction l with
  | nil => intro st _ _ _; simp [runFiles, withIdx]
  | cons g gs ih =>
    intro st hnd hfresh hall
    obtain ⟨hex, hsvc, hjp⟩ :=
      hall (st.calls, g) (by rw [withIdx]; exact List.mem_cons_self _ _)
    have hstep : processFile e m st g =
        ⟨objSet st.output g (v st.calls), st.calls + 1,
          st.throttles + (if m then 1 else 0)⟩ := by
      simp [processFile, hex, hsvc, hjp]
    have hfresh0 : g ∉ st.output.map Prod.fst := hfresh g (by simp)
    have hnd2 := (List.nodup_cons.mp hnd).2
    have hgninl := (List.nodup_cons.mp hnd).1
    rw [runFiles, hstep]
    have hfresh2 : ∀ x ∈ gs,
        x ∉ (objSet st.output g (v st.calls)).map Prod.fst := by
      intro x hx
      rw [objSet_keys_fresh st.output g (v st.calls) hfresh0]
      simp only [List.mem_append, List.mem_singleton]
      rintro (hx2 | rfl)
      · exact hfresh x (by simp [hx]) hx2
      · exact hgninl hx
    have hall2 : ∀ p ∈ withIdx (st.calls + 1) gs,
        e.fsExists p.2 = true ∧
        e.svc p.1 (e.mkPrompt p.2 (e.fsRead p.2)) = ServiceOutcome.ok (t p.1) ∧
        e.jparse (normalizeText (t p.1)) = some (v p.1) := by
      intro p hp
      exact hall p (by rw [withIdx]; exact List.mem_cons_of_mem _ hp)
    rw [ih ⟨objSet st.output g (v st.calls), st.calls + 1,
      st.throttles + (if m then 1 else 0)⟩ hnd2 hfresh2 hall2]
    rw [objSet_fresh st.output g (v st.calls) hfresh0]
    rw [withIdx]
    simp

/-! ### Claims -/

/-- C1 (amended): for every non-empty, duplicate-free input list in which
every identifier resolves to readable content and the external service
returns a well-formed completion for each call, the final BatchOutput
contains exactly one entry per input identifier, keyed by that identifier,
in input order, whose value is the parsed object of the corresponding
completion. -/
theorem c1_success_entries (e : Env) (t : Nat → String) (v : Nat → Json)
    (files : List String)
    (_hne : files ≠ [])
    (hnd : files.Nodup)
    (hall : ∀ p ∈ withIdx 0 files,
      e.fsExists p.2 = true ∧
      e.svc p.1 (e.mkPrompt p.2 (e.fsRead p.2)) = ServiceOutcome.ok (t p.1) ∧
      e.jparse (normalizeText (t p.1)) = some (v p.1)) :
    (analyzeAll e files).output =
      (withIdx 0 files).map (fun p => (p.2, v p.1)) := by
  have hbase : ∀ g ∈ files, g ∉ initState.output.map Prod.fst := by
    intro g _
    simp [initState]
  rw [analyzeAll, runFiles_all_ok e _ t v files initState hnd hbase hall]
  simp [initState]

/-- Witness for C1: two distinct targets, both succeeding. -/
theorem c1_success_entries_witness :
    ((["a", "b"] : List String) ≠ [] ∧ (["a", "b"] : List String).Nodup ∧
      (∀ p ∈ withIdx 0 ["a", "b"],
        eTwo.fsExists p.2 = true ∧
        eTwo.svc p.1 (eTwo.mkPrompt p.2 (eTwo.fsRead p.2)) =
          ServiceOutcome.ok (tTwo p.1) ∧
        eTwo.jparse (normalizeText (tTwo p.1)) = some (vTwo p.1))) ∧
    (analyzeAll eTwo ["a", "b"]).output =
      [("a", Json.num 1), ("b", Json.num 2)] := by
  have hall : ∀ p ∈ withIdx 0 ["a", "b"],
      eTwo.fsExists p.2 = true ∧
      eTwo.svc p.1 (eTwo.mkPrompt p.2 (eTwo.fsRead p.2)) =
        ServiceOutcome.ok (tTwo p.1) ∧
      eTwo.jparse (normalizeText (tTwo p.1)) = some (vTwo p.1) := by
    intro p hp
    have he : withIdx 0 ["a", "b"] = [(0, "a"), (1, "b")] := rfl
    rw [he] at hp
    simp only [List.mem_cons, List.not_mem_nil, or_false] at hp
    rcases hp with rfl | rfl
    · exact ⟨rfl, rfl, rfl⟩
    · exact ⟨rfl, rfl, rfl⟩
  refine ⟨⟨by simp, by simp, hall⟩, ?_⟩
  rw [c1_success_entries eTwo tTwo vTwo ["a", "b"] (by simp) (by simp) hall]
  rfl

/-- C1 as frozen is false when an identifier occurs twice in the input:
both occurrences satisfy the claim's hypotheses, yet the output holds a
single entry carrying only the second occurrence's parsed completion, not
one entry per input occurrence with its corresponding completion. -/
theorem c1_counterexample :
    ((["a", "a"] : List String) ≠ [] ∧
      (∀ p ∈ withIdx 0 ["a", "a"],
        eTwo.fsExists p.2 = true ∧
        eTwo.svc p.1 (eTwo.mkPrompt p.2 (eTwo.fsRead p.2)) =
          ServiceOutcome.ok (tTwo p.1) ∧
        eTwo.jparse (normalizeText (tTwo p.1)) = some (vTwo p.1))) ∧
    (analyzeAll eTwo ["a", "a"]).output = [("a", Json.num 2)] ∧
    (analyzeAll eTwo ["a", "a"]).output ≠
      (withIdx 0 ["a", "a"]).map (fun p => (p.2, vTwo p.1)) := by
  refine ⟨⟨by simp, ?_⟩, rfl, ?_⟩
  · intro p hp
    have he : withIdx 0 ["a", "a"] = [(0, "a"), (1, "a")] := rfl
    rw [he] at hp
    simp only [List.mem_cons, List.not_mem_nil, or_false] at hp
    rcases hp with rfl | rfl
    · exact ⟨rfl, rfl, rfl⟩
    · exact ⟨rfl, rfl, rfl⟩
  · have h1 : (analyzeAll eTwo ["a", "a"]).output = [("a", Json.num 2)] := rfl
    have h2 : (withIdx 0 ["a", "a"]).map (fun p => (p.2, vTwo p.1)) =
        [("a", Json.num 1), ("a", Json.num 2)] := rfl
    rw [h1, h2]
    simp

/-- C2: when the service call for a target errors, or its completion fails
to parse after normalization, the loop records exactly the degraded fallback
entry for it (and, when the target does not recur later, that is its entry in
the final output), and the remaining targets are processed from that state
unchanged: the failure never aborts the run. -/
theorem c2_failure_records_fallback (e : Env) (m : Bool) (st : RunState)
    (f : String) (rest : List String)
    (hex : e.fsExists f = true)
    (hfail : (∃ msg, e.svc st.calls (e.mkPrompt f (e.fsRead f)) =
                ServiceOutcome.err msg) ∨
             (∃ raw, e.svc st.calls (e.mkPrompt f (e.fsRead f)) =
                ServiceOutcome.ok raw ∧
                e.jparse (normalizeText raw) = none)) :
    runFiles e m st (f :: rest) =
      runFiles e m ⟨objSet st.output f fallbackResult, st.calls + 1,
        st.throttles⟩ rest
    ∧ (f ∉ rest →
        lookupKey (runFiles e m st (f :: rest)).output f =
          some fallbackResult) := by
  have hstep : processFile e m st f =
      ⟨objSet st.output f fallbackResult, st.calls + 1, st.throttles⟩ := by
    rcases hfail with ⟨msg, hsvc⟩ | ⟨raw, hsvc, hjp⟩
    · simp [processFile, hex, hsvc]
    · simp [processFile, hex, hsvc, hjp]
  constructor
  · rw [runFiles, hstep]
  · intro hnr
    rw [runFiles, hstep, lookupKey_runFiles_not_mem e m rest _ f hnr]
    exact lookupKey_objSet_self st.output f fallbackResult

/-- Witness for C2: the first of two targets fails, gets the fallback entry,
and the batch goes on. -/
theorem c2_failure_records_fallback_witness :
    (eErr.fsExists "a" = true) ∧
    (runFiles eErr true initState ["a", "b"] =
      runFiles eErr true ⟨[("a", fallbackResult)], 1, 0⟩ ["b"]
     ∧ ("a" ∉ (["b"] : List String) →
        lookupKey (runFiles eErr true initState ["a", "b"]).output "a" =
          some fallbackResult)) :=
  ⟨rfl, c2_failure_records_fallback eErr true initState "a" ["b"] rfl
    (Or.inl ⟨"boom", rfl⟩)⟩

/-- C3 (amended): the throttle fires exactly once after each successfully
analyzed target whenever the full input list has more than one element —
including after the last target — and never after a failed or skipped
target; with at most one element in the input list it never fires. -/
theorem c3_throttle_per_success (e : Env) (files : List String) :
    (analyzeAll e files).throttles =
      if 1 < files.length then countSucc e 0 files else 0 := by
  rw [analyzeAll, runFiles_throttles]
  by_cases h : 1 < files.length
  · simp [h, initState]
  · simp [h, initState]

/-- C3 as frozen is false: a batch of two present, successful targets takes
two throttle delays, not `max 0 (N-1) = 1`. -/
theorem c3_counterexample :
    ((["a", "b"].filter (fun f => eTwo.fsExists f)).length = 2) ∧
    (analyzeAll eTwo ["a", "b"]).throttles = 2 ∧
    (analyzeAll eTwo ["a", "b"]).throttles ≠ max 0 (2 - 1) := by
  refine ⟨rfl, rfl, ?_⟩
  decide

/-- C4 (amended): entries are accumulated in input order and, provided the
input list holds no duplicate identifier, no entry is ever overwritten: the
output after any prefix of the run is a prefix of the final output, and the
final keys are exactly the present files in input order. -/
theorem c4_nodup_no_overwrite (e : Env) (files : List String) (n : Nat)
    (hnd : files.Nodup) :
    (∃ t2, (runFiles e (decide (1 < files.length)) initState
        (files.take n)).output ++ t2 = (analyzeAll e files).output)
    ∧ (analyzeAll e files).output.map Prod.fst =
        files.filter (fun g => e.fsExists g) := by
  have hbase : ∀ g ∈ files, g ∉ initState.output.map Prod.fst := by
    intro g _
    simp [initState]
  have hndt : (files.take n).Nodup := hnd.sublist (List.take_sublist n files)
  have hndd : (files.drop n).Nodup := hnd.sublist (List.drop_sublist n files)
  have hdisj : ∀ g ∈ files.drop n, g ∉ files.take n := by
    intro g hg hgt
    have hnd2 : (files.take n ++ files.drop n).Nodup := by
      rw [List.take_append_drop]
      exact hnd
    exact (List.nodup_append.mp hnd2).2.2 hgt hg
  constructor
  · have hkeys : (runFiles e (decide (1 < files.length)) initState
        (files.take n)).output.map Prod.fst =
        (files.take n).filter (fun g => e.fsExists g) := by
      rw [runFiles_keys e _ (files.take n) initState hndt
        (fun g _ => by simp [initState])]
      simp [initState]
    have hfresh : ∀ g ∈ files.drop n,
        g ∉ (runFiles e (decide (1 < files.length)) initState
          (files.take n)).output.map Prod.fst := by
      intro g hg
      rw [hkeys]
      intro hgf
      exact hdisj g hg (List.mem_of_mem_filter hgf)
    obtain ⟨t2, ht2⟩ := runFiles_extends e (decide (1 < files.length))
      (files.drop n) _ hndd hfresh
    refine ⟨t2, ?_⟩
    rw [ht2, analyzeAll, ← runFiles_append, List.take_append_drop]
  · rw [analyzeAll, runFiles_keys e _ files initState hnd hbase]
    simp [initState]

/-- Witness for C4: duplicate-free batch of two targets. -/
theorem c4_nodup_no_overwrite_witness :
    (["a", "b"] : List String).Nodup ∧
    ((∃ t2, (runFiles eTwo (decide (1 < (["a", "b"] : List String).length))
        initState (["a", "b"].take 1)).output ++ t2 =
        (analyzeAll eTwo ["a", "b"]).output)
     ∧ (analyzeAll eTwo ["a", "b"]).output.map Prod.fst =
        ["a", "b"].filter (fun g => eTwo.fsExists g)) :=
  ⟨by simp, c4_nodup_no_overwrite eTwo ["a", "b"] 1 (by simp)⟩

/-- C4 as frozen is false: with the same identifier twice in the input, the
entry written for the first occurrence is overwritten by the second. -/
theorem c4_counterexample :
    (processFile eTwo true initState "a").output = [("a", Json.num 1)] ∧
    (analyzeAll eTwo ["a", "a"]).output = [("a", Json.num 2)] ∧
    lookupKey (processFile eTwo true initState "a").output "a" ≠
      lookupKey (analyzeAll eTwo ["a", "a"]).output "a" := by
  refine ⟨rfl, rfl, ?_⟩
  have h1 : lookupKey (processFile eTwo true initState "a").output "a" =
      some (Json.num 1) := rfl
  have h2 : lookupKey (analyzeAll eTwo ["a", "a"]).output "a" =
      some (Json.num 2) := rfl
  rw [h1, h2]
  simp

/-- C5: a target whose identifier does not resolve to an existing file is
skipped without any state change — no entry, no external call, no delay —
the rest of the batch is processed exactly as if the target were absent,
and the identifier is wholly absent from the final output. -/
theorem c5_missing_skipped (e : Env) (m : Bool) (st : RunState) (f : String)
    (rest files : List String) (h : e.fsExists f = false) :
    runFiles e m st (f :: rest) = runFiles e m st rest
    ∧ lookupKey (analyzeAll e files).output f = none := by
  constructor
  · rw [runFiles, processFile_skip e m st f h]
  · rw [analyzeAll, lookupKey_runFiles_missing e _ f h files initState]
    rfl

/-- Witness for C5: the missing target `"gone"` is skipped and absent. -/
theorem c5_missing_skipped_witness :
    (eSkip.fsExists "gone" = false) ∧
    (runFiles eSkip true initState ["gone", "b"] =
      runFiles eSkip true initState ["b"]
     ∧ lookupKey (analyzeAll eSkip ["a", "gone", "b"]).output "gone" = none) :=
  ⟨rfl, c5_missing_skipped eSkip true initState "gone" ["b"]
    ["a", "gone", "b"] rfl⟩

theorem isPre_head_ne (h0 : Char) (t0 : List Char) (c : Char) (rest : List Char)
    (h : c ≠ h0) : isPre (h0 :: t0) (c :: rest) = false := by
  have hb : (h0 == c) = false := by
    rw [beq_eq_false_iff_ne]
    intro he
    exact h he.symm
  rw [isPre, hb, Bool.false_and]

theorem containsSub_skip_mid (h0 : Char) (t0 : List Char) :
    ∀ (mid tail : List Char), (∀ c ∈ mid, c ≠ h0) →
      containsSub (h0 :: t0) (mid ++ tail) = containsSub (h0 :: t0) tail := by
  intro mid
  induction mid with
  | nil => intro tail _; rfl
  | cons c cs ih =>
    intro tail hmid
    have hc : c ≠ h0 := hmid c (by simp)
    rw [List.cons_append, containsSub, isPre_head_ne h0 t0 c _ hc, Bool.false_or]
    exact ih tail (fun d hd => hmid d (by simp [hd]))

theorem containsSub_cccjson_fence_head (T : List Char) :
    containsSub cccjson (ccc ++ '\n' :: T) = containsSub cccjson T := by
  have f1 : isPre cccjson (ccc ++ '\n' :: T) = false := by
    have hs : cccjson = "```j".toList ++ "son".toList := by decide
    rw [hs]
    exact isPre_append_false _ _ _ rfl
  have f2 : isPre cccjson ("``".toList ++ '\n' :: T) = false := by
    have hs : cccjson = "```".toList ++ "json".toList := by decide
    rw [hs]
    exact isPre_append_false _ _ _ rfl
  have f3 : isPre cccjson ("`".toList ++ '\n' :: T) = false := by
    have hs : cccjson = "``".toList ++ "`json".toList := by decide
    rw [hs]
    exact isPre_append_false _ _ _ rfl
  have f4 : isPre cccjson ('\n' :: T) = false := by
    have hs : cccjson = "`".toList ++ "``json".toList := by decide
    rw [hs]
    exact isPre_append_false _ _ _ rfl
  show (isPre cccjson (ccc ++ '\n' :: T) ||
        (isPre cccjson ("``".toList ++ '\n' :: T) ||
         (isPre cccjson ("`".toList ++ '\n' :: T) ||
          (isPre cccjson ('\n' :: T) || containsSub cccjson T)))) =
      containsSub cccjson T
  rw [f1, f2, f3, f4]
  simp

/-- C6 (amended): the normalizer deletes every occurrence of the two literal
patterns (fence with `json` tag, then bare fence) and trims whitespace, so a
completion wrapped in a fence with the `json` tag, or in a tagless fence,
normalizes to its trimmed inner text; a fence with any other language tag is
not recognized — its tag text survives stripping (see the counterexample). -/
theorem c6_fence_normalization (inner : List Char)
    (h : ∀ c ∈ inner, c ≠ fenceChar) :
    normList (cccjson ++ '\n' :: (inner ++ '\n' :: ccc)) = trimList inner
    ∧ normList (ccc ++ '\n' :: (inner ++ '\n' :: ccc)) = trimList inner := by
  have hj : cccjson = fenceChar :: "``json".toList := by decide
  have hcc : ccc = fenceChar :: "``".toList := by decide
  have hnl : ('\n' : Char) ≠ fenceChar := by decide
  have hmid : ∀ c ∈ '\n' :: inner, c ≠ fenceChar := by
    intro c hc
    rcases List.mem_cons.mp hc with rfl | hc2
    · exact hnl
    · exact h c hc2
  have hjne : cccjson ≠ [] := by decide
  have hccne : ccc ≠ [] := by decide
  have hrm1 : rmA cccjson 0 ('\n' :: ccc) = '\n' :: ccc := by decide
  have hrm2 : rmA ccc 0 ('\n' :: ccc) = ['\n'] := by decide
  have hramj : ∀ s, removeAll cccjson s = rmA cccjson 0 s := by
    intro s
    rw [removeAll, if_neg (by decide)]
  have hramc : ∀ s, removeAll ccc s = rmA ccc 0 s := by
    intro s
    rw [removeAll, if_neg (by decide)]
  have hsplit : ('\n' :: (inner ++ '\n' :: ccc)) =
      ('\n' :: inner) ++ ('\n' :: ccc) := by simp
  have hwrap : ('\n' :: inner) ++ ['\n'] = List.cons '\n' (inner ++ ['\n']) := by
    simp
  have hskipj : rmA cccjson 0 (('\n' :: inner) ++ ('\n' :: ccc)) =
      ('\n' :: inner) ++ rmA cccjson 0 ('\n' :: ccc) := by
    rw [hj]
    exact rmA_skip_mid _ _ _ _ hmid
  have hskipc : rmA ccc 0 (('\n' :: inner) ++ ('\n' :: ccc)) =
      ('\n' :: inner) ++ rmA ccc 0 ('\n' :: ccc) := by
    rw [hcc]
    exact rmA_skip_mid _ _ _ _ hmid
  constructor
  · rw [normList, stripList, hramj, hramc]
    rw [rmA_head_match cccjson _ hjne, hsplit]
    rw [hskipj, hrm1, hskipc, hrm2]
    rw [hwrap, trimList_wrap]
  · rw [normList, stripList, hramj, hramc]
    have hno : containsSub cccjson (ccc ++ '\n' :: (inner ++ '\n' :: ccc)) =
        false := by
      rw [containsSub_cccjson_fence_head]
      have hskipcs : containsSub cccjson (inner ++ ('\n' :: ccc)) =
          containsSub cccjson ('\n' :: ccc) := by
        rw [hj]
        exact containsSub_skip_mid _ _ _ _ h
      rw [hskipcs]
      decide
    rw [rmA_no_occurrence cccjson _ hno]
    rw [rmA_head_match ccc _ hccne, hsplit]
    rw [hskipc, hrm2]
    rw [hwrap, trimList_wrap]

/-- Witness for C6: a json-tagged fenced completion normalizes to its inner
text. -/
theorem c6_fence_normalization_witness :
    (∀ c ∈ "\x7b\"k\":1\x7d".data, c ≠ fenceChar) ∧
    normList (cccjson ++ '\n' :: ("\x7b\"k\":1\x7d".data ++ '\n' :: ccc)) =
      trimList "\x7b\"k\":1\x7d".data ∧
    trimList "\x7b\"k\":1\x7d".data = "\x7b\"k\":1\x7d".data :=
  ⟨by decide, (c6_fence_normalization _ (by decide)).1, by decide⟩

/-- C6 as frozen is false for fences with a language tag other than `json`:
the tag text `js` survives stripping, so the remainder is not the inner
JSON. -/
theorem c6_counterexample :
    normList "```js\n\x7b\x7d\n```".data = "js\n\x7b\x7d".data ∧
    normList "```js\n\x7b\x7d\n```".data ≠ "\x7b\x7d".data := by
  constructor
  · decide
  · decide

/-- C7: for the empty input list the process exits with code 1 and a
diagnostic, with no external call made and no artifact written. -/
theorem c7_empty_input_exits (e : Env) :
    runMain e [] = ⟨1, some "❌ No files provided to analyze.", none, 0⟩ := rfl

/-- C8 (amended): the narrative document is truncated to its first 3000
characters — the cut is proper exactly when it exceeds 3000 characters — but
the `...` truncation marker is appended unconditionally, even to a shorter
README; when neither manifest nor narrative is available, or when the
manifest parse throws (the failure is caught), the context is the generic
placeholder string. -/
theorem c8_context_building (e : CtxEnv) (r : String) :
    (e.pkgExists = false → e.readme = some r →
      buildContext e = "Unknown React Application" ++
        ("\n\nREADME Summary:\n" ++ takeChars 3000 r ++ "..."))
    ∧ (e.pkgExists = true → e.pkgParsed = none →
        buildContext e = "Unknown React Application")
    ∧ (e.pkgExists = false → e.readme = none →
        buildContext e = "Unknown React Application")
    ∧ (takeChars 3000 r = r ↔ r.data.length ≤ 3000) := by
  refine ⟨?_, ?_, ?_, ?_⟩
  · intro hp hr
    simp [buildContext, hp, hr, readmeBlock]
  · intro hp hn
    simp [buildContext, hp, hn]
  · intro hp hn
    simp [buildContext, hp, hn]
  · constructor
    · intro ht
      have hd : r.data.take 3000 = r.data := by
        have := congrArg String.data ht
        rwa [takeChars] at this
      have hlen := congrArg List.length hd
      rw [List.length_take] at hlen
      by_cases hc : r.data.length ≤ 3000
      · exact hc
      · push_neg at hc
        rw [Nat.min_eq_left (le_of_lt hc)] at hlen
        omega
    · intro hle
      have ht : r.data.take 3000 = r.data := List.take_of_length_le hle
      rw [takeChars, ht]

/-- Witness for C8: a two-character README is kept whole yet still marked. -/
theorem c8_context_building_witness :
    buildContext ⟨false, none, some "hi"⟩ =
      "Unknown React Application" ++
        ("\n\nREADME Summary:\n" ++ takeChars 3000 "hi" ++ "...") ∧
    takeChars 3000 "hi" = "hi" :=
  ⟨(c8_context_building ⟨false, none, some "hi"⟩ "hi").1 rfl rfl,
   (c8_context_building ⟨false, none, some "hi"⟩ "hi").2.2.2.mpr (by decide)⟩

/-- C8 as frozen is false: a README of 2 characters is included unchanged
but still gets the `...` marker, so it is not unmarked. -/
theorem c8_counterexample :
    buildContext ⟨false, none, some "hi"⟩ =
      "Unknown React Application\n\nREADME Summary:\nhi..." ∧
    buildContext ⟨false, none, some "hi"⟩ ≠
      "Unknown React Application\n\nREADME Summary:\nhi" := by
  constructor
  · decide
  · decide

/-- C9: the fence-stripping step is the identity on any completion that
contains no fence marker. -/
theorem c9_strip_fence_free (s : List Char) (h : containsSub ccc s = false) :
    stripList s = s := by
  have hj : containsSub cccjson s = false := by
    have hs : cccjson = ccc ++ "json".toList := by decide
    rw [hs]
    exact containsSub_append_false ccc _ s h
  rw [stripList, removeAll_no_occurrence cccjson s hj,
    removeAll_no_occurrence ccc s h]

/-- Witness for C9: a fence-free JSON object text is left unchanged. -/
theorem c9_strip_fence_free_witness :
    containsSub ccc "\x7b\"a\":1\x7d".data = false ∧
      stripList "\x7b\"a\":1\x7d".data = "\x7b\"a\":1\x7d".data :=
  ⟨by decide, c9_strip_fence_free _ (by decide)⟩

/-- C10: fence deletion is global, not anchored at the boundaries: a valid
JSON completion holding a triple backtick inside a string value is rewritten
by normalization, so the parse of the normalized text differs from the parse
of the original completion, for any parse function that treats the two
concrete texts as JSON does. -/
theorem c10_global_deletion (jp : String → Option Json)
    (h1 : jp "\x7b\"a\":\"x```y\"\x7d" =
      some (Json.obj [("a", Json.str "x```y")]))
    (h2 : jp "\x7b\"a\":\"xy\"\x7d" = some (Json.obj [("a", Json.str "xy")])) :
    normalizeText "\x7b\"a\":\"x```y\"\x7d" = "\x7b\"a\":\"xy\"\x7d" ∧
    jp (normalizeText "\x7b\"a\":\"x```y\"\x7d") ≠
      jp "\x7b\"a\":\"x```y\"\x7d" := by
  have hn : normalizeText "\x7b\"a\":\"x```y\"\x7d" = "\x7b\"a\":\"xy\"\x7d" := by
    decide
  refine ⟨hn, ?_⟩
  rw [hn, h1, h2]
  simp

/-- Witness for C10: the concrete parser `jpFence` realizes the hypotheses. -/
theorem c10_global_deletion_witness :
    (jpFence "\x7b\"a\":\"x```y\"\x7d" =
      some (Json.obj [("a", Json.str "x```y")]) ∧
     jpFence "\x7b\"a\":\"xy\"\x7d" = some (Json.obj [("a", Json.str "xy")])) ∧
    (normalizeText "\x7b\"a\":\"x```y\"\x7d" = "\x7b\"a\":\"xy\"\x7d" ∧
     jpFence (normalizeText "\x7b\"a\":\"x```y\"\x7d") ≠
       jpFence "\x7b\"a\":\"x```y\"\x7d") :=
  ⟨⟨rfl, rfl⟩, c10_global_deletion jpFence rfl rfl⟩

end Previewer
